import Mathlib

/-!
Verification development for the Flappy Bird + NEAT evaluation harness
(`flappy.py`).  The game state and the per-frame simulation phases are
shallowly embedded: integers of the source stay integers (`ℤ`), Python
floats produced by the physics (velocity, vertical position) are modelled
as exact rationals (`ℚ`), `random.randint(lo, hi)` is modelled as a
deterministic function of a natural-number draw that always lands in
`[lo, hi]`, and Python's `max` over a possibly-empty generator is modelled
as an `Option`-valued maximum.  Fallible steps (the recycle of a pipe when
no other pipe exists) return `Option`.
-/

/-! ## Constants, from the top of flappy.py -/

def WINDOW_WIDTH : ℤ := 800
def WINDOW_HEIGHT : ℤ := 600

def BIRD_X : ℤ := 100
def BIRD_WIDTH : ℤ := 40
def BIRD_HEIGHT : ℤ := 30
def FLAP_STRENGTH : ℚ := -8
def GRAVITY : ℚ := 1/2
def BIRD_COLLISION_RATIO : ℚ := 1

def PIPE_WIDTH : ℤ := 180
def PIPE_GAP : ℤ := 150
def MIN_PIPE_HEIGHT : ℤ := 50
def PIPE_SPEED_BASE : ℤ := 3

def MIN_PIPE_SPACING : ℤ := 200
def MAX_PIPE_SPACING : ℤ := 400

def HITBOX_SHRINK_FACTOR : ℚ := 1/5
def BG_SCROLL_SPEED_BASE : ℤ := 2

def NUM_PIPES : ℕ := 5

/-- Truncation toward zero, as Python's `int(...)` and `pygame.Rect`
apply to float coordinates. -/
def truncQ (q : ℚ) : ℤ := Int.tdiv q.num (q.den : ℤ)

/-- Model of `random.randint lo hi`: a deterministic function of a draw
`r`; for `lo ≤ hi` its value is always in the inclusive range `[lo, hi]`
and every value of the range is attained. -/
def randintZ (lo hi : ℤ) (r : ℕ) : ℤ := lo + (r : ℤ) % (hi - lo + 1)

/-- Model of Python's `max` on a list of integers (`none` on the empty
list, where Python raises `ValueError`). -/
def listMax : List ℤ → Option ℤ
  | [] => none
  | x :: xs =>
    match listMax xs with
    | none => some x
    | some m => some (max x m)

/-! ## Bird (agent physics), from `class Bird` -/

structure Bird where
  x : ℚ
  y : ℚ
  vel_y : ℚ
deriving DecidableEq

/-- Source `Bird.flap`: sets the velocity to the fixed flap impulse
(`self.vel_y = FLAP_STRENGTH`). -/
def Bird.flap (b : Bird) : Bird := { b with vel_y := FLAP_STRENGTH }

/-- Source `Bird.update`: `self.vel_y += GRAVITY; self.y += self.vel_y`. -/
def Bird.update (b : Bird) : Bird :=
  let v := b.vel_y + GRAVITY
  { b with vel_y := v, y := b.y + v }

/-! ## Pipe (obstacle), from `class Pipe` -/

structure Pipe where
  x : ℤ
  gap_top : ℤ
  scored : Bool
deriving DecidableEq

/-- Source `Pipe.randomize_position`: draw `gap_top` from
`randint(MIN_PIPE_HEIGHT, WINDOW_HEIGHT - PIPE_GAP - MIN_PIPE_HEIGHT)`. -/
def randomize_position (r : ℕ) : ℤ :=
  randintZ MIN_PIPE_HEIGHT (WINDOW_HEIGHT - PIPE_GAP - MIN_PIPE_HEIGHT) r

/-- Source `Pipe.reset_position`: `rightmost_x = max(p.x for p in all_pipes if p
is not self)`, then `x = rightmost_x + randint(MIN_PIPE_SPACING,
MAX_PIPE_SPACING)`, `scored = False`, and a fresh gap.  `others` is the
list of the other pipes' x coordinates; the empty case is Python's
`ValueError`. -/
def reset_position (others : List ℤ) (rd rg : ℕ) : Option Pipe :=
  match listMax others with
  | none => none
  | some m =>
    some { x := m + randintZ MIN_PIPE_SPACING MAX_PIPE_SPACING rd
           gap_top := randomize_position rg
           scored := false }

/-! ## Collision rectangles, from `Bird.get_rect` / `Pipe.get_rects` -/

structure Rect where
  x : ℤ
  y : ℤ
  w : ℤ
  h : ℤ
deriving DecidableEq

/-- pygame `Rect.colliderect`: strict overlap on both axes. -/
def colliderect (a b : Rect) : Bool :=
  decide (a.x < b.x + b.w) && decide (a.x + a.w > b.x) &&
  decide (a.y < b.y + b.h) && decide (a.y + a.h > b.y)

def collision_w : ℤ := truncQ ((BIRD_WIDTH : ℚ) * BIRD_COLLISION_RATIO)
def collision_h : ℤ := truncQ ((BIRD_HEIGHT : ℚ) * BIRD_COLLISION_RATIO)

/-- Source `Bird.get_rect`: collision box centred in the visual box; pygame
truncates the float coordinates. -/
def Bird.get_rect (b : Bird) : Rect :=
  let cx := b.x + ((BIRD_WIDTH : ℚ) - (collision_w : ℚ)) / 2
  let cy := b.y + ((BIRD_HEIGHT : ℚ) - (collision_h : ℚ)) / 2
  { x := truncQ cx, y := truncQ cy, w := collision_w, h := collision_h }

/-- Source `Pipe.get_rects`: top and bottom segment rectangles, horizontally
shrunk by `HITBOX_SHRINK_FACTOR` and centred. -/
def Pipe.get_rects (p : Pipe) : Rect × Rect :=
  let new_width : ℚ := (PIPE_WIDTH : ℚ) * HITBOX_SHRINK_FACTOR
  let offset_x : ℚ := ((PIPE_WIDTH : ℚ) - new_width) / 2
  ({ x := truncQ ((p.x : ℚ) + offset_x), y := 0
     w := truncQ new_width, h := p.gap_top },
   { x := truncQ ((p.x : ℚ) + offset_x), y := p.gap_top + PIPE_GAP
     w := truncQ new_width, h := WINDOW_HEIGHT - (p.gap_top + PIPE_GAP) })

/-- One bird against one pipe:
`bird_rect.colliderect(top_rect) or bird_rect.colliderect(bottom_rect)`. -/
def pipeCollide (b : Bird) (p : Pipe) : Bool :=
  let r := p.get_rects
  colliderect b.get_rect r.1 || colliderect b.get_rect r.2

/-! ## Per-agent termination check, AI mode (eval_genomes 12.12) -/

/-- Wall check of the AI loop:
`ai_bird.y < 0 or (ai_bird.y + BIRD_HEIGHT) >= WINDOW_HEIGHT`. -/
def wallViolation (b : Bird) : Bool :=
  decide (b.y < 0) || decide (b.y + (BIRD_HEIGHT : ℚ) ≥ (WINDOW_HEIGHT : ℚ))

inductive Death where
  | wall
  | pipeHit
deriving DecidableEq

/-- Per-bird check of frame phase 12.12: the wall check fires first and
`continue`s (skipping the pipe check); otherwise the pipes are scanned. -/
def checkBird (b : Bird) (ps : List Pipe) : Option Death :=
  if wallViolation b then some Death.wall
  else if ps.any (fun p => pipeCollide b p) then some Death.pipeHit
  else none

/-! ## Human-mode checks (main_human_mode) -/

/-- Wall check of the human-mode loop:
`bird.y < 0 or (bird.y + BIRD_HEIGHT) > WINDOW_HEIGHT` — note the strict
`>` on the bottom edge, unlike the AI loop's `>=`. -/
def humanWallCheck (b : Bird) : Bool :=
  decide (b.y < 0) || decide (b.y + (BIRD_HEIGHT : ℚ) > (WINDOW_HEIGHT : ℚ))

/-- In human mode the wall check and the pipe scan both run every frame;
neither is skipped when the other fires. -/
def humanStepEvents (b : Bird) (ps : List Pipe) : Bool × Bool :=
  (humanWallCheck b, ps.any (fun p => pipeCollide b p))

/-! ## Difficulty scaler, from `get_dynamic_speeds` -/

/-- Source `get_dynamic_speeds`: `increment = current_score // 5`;
returns `(bg_speed, pipe_speed)`. -/
def get_dynamic_speeds (current_score : ℕ) : ℤ × ℤ :=
  (BG_SCROLL_SPEED_BASE + ((current_score / 5 : ℕ) : ℤ),
   PIPE_SPEED_BASE + ((current_score / 5 : ℕ) : ℤ))

/-! ## Scoring pass, from eval_genomes 12.13 / main_human_mode -/

/-- One left-to-right pass over the pipe list, as the scoring loop:
for each pipe, if `(pipe.x + PIPE_WIDTH) < (BIRD_X + BIRD_WIDTH)` and the
pipe is not yet scored, mark it scored, add 1 to the shared score and add
5 to the fitness of every agent currently in the collections.  Returns
(fitness list, score, pipe list). -/
def scoreStep : List ℚ → ℕ → List Pipe → List ℚ × ℕ × List Pipe
  | fits, sc, [] => (fits, sc, [])
  | fits, sc, p :: ps =>
    if p.x + PIPE_WIDTH < BIRD_X + BIRD_WIDTH ∧ p.scored = false then
      let r := scoreStep (fits.map (fun f => f + 5)) (sc + 1) ps
      (r.1, r.2.1, { p with scored := true } :: r.2.2)
    else
      let r := scoreStep fits sc ps
      (r.1, r.2.1, p :: r.2.2)

/-- Number of pipes that trigger a pass event in the current pass. -/
def newlyPassed (ps : List Pipe) : ℕ :=
  ps.countP (fun p => decide (p.x + PIPE_WIDTH < BIRD_X + BIRD_WIDTH ∧ p.scored = false))

/-- The pipe list after a scoring pass: every pipe whose trailing edge is
left of the reference agent's trailing edge carries `scored = true`. -/
def markPassed (ps : List Pipe) : List Pipe :=
  ps.map (fun p =>
    if p.x + PIPE_WIDTH < BIRD_X + BIRD_WIDTH then { p with scored := true } else p)

/-! ## Sensory encoding and flap decision, from eval_genomes 12.8-12.10 -/

/-- A genome's feed-forward network: 5 inputs, the first output read as
the flap signal (external `neat` library, opaque to the core). -/
abbrev Net := ℚ → ℚ → ℚ → ℚ → ℚ → ℚ

/-- Loop body of the nearest-pipe scan: keep the qualifying pipe
(`dist_x + PIPE_WIDTH > -50`) of smallest signed distance seen so far. -/
def nearestStep (b : Bird) (acc : Option (ℚ × Pipe)) (p : Pipe) : Option (ℚ × Pipe) :=
  let dist_x : ℚ := (p.x : ℚ) - b.x
  if dist_x + (PIPE_WIDTH : ℚ) > -50 then
    match acc with
    | none => some (dist_x, p)
    | some (bd, bp) => if dist_x < bd then some (dist_x, p) else some (bd, bp)
  else acc

/-- The scan of 12.8 over the pipe list (`nearest_pipe_dist` starts at
infinity, modelled by the empty accumulator). -/
def nearestPipe (b : Bird) (ps : List Pipe) : Option (ℚ × Pipe) :=
  ps.foldl (nearestStep b) none

/-- The tuple handed to `nets[i].activate` in 12.9, when a nearest pipe
exists; with no qualifying pipe the network is not activated at all. -/
def sensoryInputs (b : Bird) (ps : List Pipe) : Option (List ℚ) :=
  match nearestPipe b ps with
  | none => none
  | some (d, p) =>
    some [b.y, b.vel_y, d, (p.gap_top : ℚ), ((p.gap_top + PIPE_GAP : ℤ) : ℚ)]

/-- 12.8-12.10 for one bird: activate the network on the sensory tuple
and flap when the first output exceeds 0.5. -/
def decideBird (net : Net) (ps : List Pipe) (b : Bird) : Bird :=
  match nearestPipe b ps with
  | none => b
  | some (d, p) =>
    if net b.y b.vel_y d (p.gap_top : ℚ) ((p.gap_top + PIPE_GAP : ℤ) : ℚ) > 1/2 then
      b.flap
    else b

/-! ## Collision scan and batch removal, from eval_genomes 12.12 / 12.14 -/

/-- The scan of 12.12: one forward pass over the birds (index `i`
alongside the fitness list), collecting the indices to remove and
applying the −1 penalty to exactly the marked agents. -/
def checkBirds (ps : List Pipe) : List Bird → List ℚ → ℕ → List ℕ × List ℚ
  | [], fits, _ => ([], fits)
  | _ :: _, [], _ => ([], [])
  | b :: bs, f :: fs, i =>
    let r := checkBirds ps bs fs (i + 1)
    if (checkBird b ps).isSome then (i :: r.1, (f - 1) :: r.2)
    else (r.1, f :: r.2)

/-- 12.14: pop the marked indices in reverse order
(`for idx in reversed(indices_to_remove): xs.pop(idx)`). -/
def removeAll (xs : List α) (idxs : List ℕ) : List α :=
  idxs.reverse.foldl (fun acc i => acc.eraseIdx i) xs

/-- Spec-side removal (for the refinement statement of the batch pop):
walk the list once and keep exactly the entries whose position is not
marked, assuming the marks are listed in ascending order.  No surviving
entry is skipped, dropped or reordered. -/
def keepUnmarked : List α → List ℕ → List α
  | [], _ => []
  | x :: xs, [] => x :: keepUnmarked xs []
  | _ :: xs, 0 :: rest => keepUnmarked xs (rest.map (fun i => i - 1))
  | x :: xs, (n + 1) :: rest => x :: keepUnmarked xs (((n + 1) :: rest).map (fun i => i - 1))

/-! ## Pipe pool update, from eval_genomes 12.7 / Pipe.update -/

/-- The loop `for pipe in local_pipes: pipe.update(...)`, processed in
list order with in-place mutation: `done` holds the pipes already
processed this frame (at their updated positions), the second list the
pipes still to process.  Each pipe moves left by `pipe_speed`; if its
right edge crossed the left boundary it is recycled relative to the
current positions of all other pipes, consuming two draws from the
stream `g` at cursor `rix`. -/
def updatePipesGo (pipe_speed : ℤ) (g : ℕ → ℕ) :
    List Pipe → List Pipe → ℕ → Option (List Pipe × ℕ)
  | done, [], rix => some (done, rix)
  | done, p :: rest, rix =>
    let x' := p.x - pipe_speed
    if x' + PIPE_WIDTH < 0 then
      match reset_position ((done ++ rest).map Pipe.x) (g rix) (g (rix + 1)) with
      | none => none
      | some q => updatePipesGo pipe_speed g (done ++ [q]) rest (rix + 2)
    else
      updatePipesGo pipe_speed g (done ++ [{ p with x := x' }]) rest rix

/-- The fresh pool of a round: `NUM_PIPES` pipes at
`WINDOW_WIDTH + i * MIN_PIPE_SPACING`, each with a freshly drawn gap. -/
def initPipes (g : ℕ → ℕ) : List Pipe :=
  (List.range NUM_PIPES).map (fun (i : ℕ) =>
    { x := WINDOW_WIDTH + (i : ℤ) * MIN_PIPE_SPACING
      gap_top := randomize_position (g i)
      scored := false })

/-- Runs `n` frames of the pipe subsystem alone, with an arbitrary per-frame
speed schedule `sp` (the real loop feeds it the difficulty-scaled
speed). -/
def runPipes (g : ℕ → ℕ) (sp : ℕ → ℤ) : ℕ → List Pipe → ℕ → Option (List Pipe × ℕ)
  | 0, ps, rix => some (ps, rix)
  | n + 1, ps, rix =>
    match updatePipesGo (sp n) g [] ps rix with
    | none => none
    | some (ps', rix') => runPipes g sp n ps' rix'

/-- The valid gap-top range of the spec:
`[MIN_PIPE_HEIGHT, WINDOW_HEIGHT - PIPE_GAP - MIN_PIPE_HEIGHT]`. -/
def gapInRange (p : Pipe) : Prop :=
  MIN_PIPE_HEIGHT ≤ p.gap_top ∧ p.gap_top ≤ WINDOW_HEIGHT - PIPE_GAP - MIN_PIPE_HEIGHT

instance (p : Pipe) : Decidable (gapInRange p) := by
  unfold gapInRange
  infer_instance

/-! ## The AI evaluation round, from eval_genomes 12.4-12.15 -/

structure EvalState where
  frame : ℕ
  score : ℕ
  birds : List Bird
  nets : List Net
  fits : List ℚ
  pipes : List Pipe
  rix : ℕ

/-- Phases 12.8-12.14 of one frame, after the pipe phase produced the
moved pool `ps` and the new draw cursor `rix'`: flap decisions, physics,
collision scan with penalties, scoring pass with bonuses, batch removal
in reverse index order from the three parallel collections, and the frame
counter increment (done at the top of the loop body in the source). -/
def stepFrameCore (s : EvalState) (ps : List Pipe) (rix' : ℕ) : EvalState :=
  let birds1 := List.zipWith (fun n b => decideBird n ps b) s.nets s.birds
  let birds2 := birds1.map Bird.update
  let chk := checkBirds ps birds2 s.fits 0
  let sc := scoreStep chk.2 s.score ps
  { frame := s.frame + 1
    score := sc.2.1
    birds := removeAll birds2 chk.1
    nets := removeAll s.nets chk.1
    fits := removeAll sc.1 chk.1
    pipes := sc.2.2
    rix := rix' }

/-- One full frame of the AI loop body: difficulty-scaled speeds, pipe
phase (which can fail only if a recycling pipe finds no other pipe), then
the remaining phases. -/
def stepFrame (g : ℕ → ℕ) (s : EvalState) : Option EvalState :=
  match updatePipesGo (get_dynamic_speeds s.score).2 g [] s.pipes s.rix with
  | none => none
  | some (ps, rix') => some (stepFrameCore s ps rix')

/-- The loop of 12.5: `while run and len(ai_birds) > 0`, with the hard
frame cap of 12.15 (`if frame_count > 10000: break`) checked after the
frame's work. -/
def evalLoop (g : ℕ → ℕ) (s : EvalState) : Option EvalState :=
  if s.birds.isEmpty then some s
  else
    match h : stepFrame g s with
    | none => none
    | some s' =>
      if h2 : 10000 < s'.frame then some s'
      else evalLoop g s'
termination_by 10001 - s.frame
decreasing_by
  have hf : s'.frame = s.frame + 1 := by
    unfold stepFrame at h
    split at h
    · exact absurd h (by simp)
    · cases h
      rfl
  omega

/-! # Theorems -/

/-! ## Helper lemmas on the random draw model and the list maximum -/

theorem randintZ_mem (lo hi : ℤ) (r : ℕ) (h : lo ≤ hi) :
    lo ≤ randintZ lo hi r ∧ randintZ lo hi r ≤ hi := by
  have h1 : 0 ≤ (r : ℤ) % (hi - lo + 1) := Int.emod_nonneg _ (by omega)
  have h2 : (r : ℤ) % (hi - lo + 1) < hi - lo + 1 := Int.emod_lt_of_pos _ (by omega)
  unfold randintZ
  omega

theorem randintZ_surj (lo hi v : ℤ) (h1 : lo ≤ v) (h2 : v ≤ hi) :
    ∃ r : ℕ, randintZ lo hi r = v := by
  refine ⟨(v - lo).toNat, ?_⟩
  have hc : (((v - lo).toNat : ℤ)) = v - lo := Int.toNat_of_nonneg (by omega)
  unfold randintZ
  rw [hc, Int.emod_eq_of_lt (by omega) (by omega)]
  omega

theorem listMax_cons_isSome (x : ℤ) (xs : List ℤ) : ∃ m, listMax (x :: xs) = some m := by
  cases h : listMax xs <;> simp [listMax, h]

theorem listMax_eq_none (l : List ℤ) (h : listMax l = none) : l = [] := by
  cases l with
  | nil => rfl
  | cons x xs =>
    exfalso
    cases h' : listMax xs <;> simp [listMax, h'] at h

theorem listMax_mem : ∀ (l : List ℤ) (m : ℤ), listMax l = some m → m ∈ l := by
  intro l
  induction l with
  | nil => intro m hm; simp [listMax] at hm
  | cons x xs ih =>
    intro m hm
    cases h : listMax xs with
    | none => simp [listMax, h] at hm; simp [hm]
    | some m' =>
      simp [listMax, h] at hm
      rcases max_choice x m' with hc | hc
      · rw [hc] at hm
        simp [hm]
      · rw [hc] at hm
        subst hm
        exact List.mem_cons_of_mem x (ih m' h)

theorem listMax_le : ∀ (l : List ℤ) (m : ℤ), listMax l = some m → ∀ y ∈ l, y ≤ m := by
  intro l
  induction l with
  | nil => intro m _ y hy; simp at hy
  | cons x xs ih =>
    intro m hm y hy
    cases h : listMax xs with
    | none =>
      have hxs := listMax_eq_none xs h
      subst hxs
      simp [listMax] at hm
      simp at hy
      omega
    | some m' =>
      simp [listMax, h] at hm
      rcases List.mem_cons.mp hy with hc | hc
      · subst hc
        omega
      · have := ih m' h y hc
        omega

/-! ## C5 — agent physics -/

/-- C5: each frame, `Bird.update` first sets the vertical velocity to the
previous velocity plus GRAVITY and then moves y by the new velocity,
unconditionally and with no clamping; `Bird.flap` overwrites the velocity
with the fixed negative constant FLAP_STRENGTH, regardless of the
previous velocity. -/
theorem bird_physics_integration (b : Bird) :
    (Bird.update b).vel_y = b.vel_y + GRAVITY ∧
    (Bird.update b).y = b.y + (b.vel_y + GRAVITY) ∧
    (Bird.update b).x = b.x ∧
    (Bird.flap b).vel_y = FLAP_STRENGTH ∧
    (Bird.flap b).y = b.y ∧
    (Bird.flap b).x = b.x ∧
    FLAP_STRENGTH = -8 ∧
    FLAP_STRENGTH < 0 ∧
    GRAVITY = 1/2 :=
  ⟨rfl, rfl, rfl, rfl, rfl, rfl, rfl, by norm_num [FLAP_STRENGTH], rfl⟩

/-! ## C9 — difficulty scaler -/

/-- C9: `get_dynamic_speeds` is a pure function of the score returning
`(BG_SCROLL_SPEED_BASE + score / 5, PIPE_SPEED_BASE + score / 5)` with
floor division; both components are monotone in the score, and a score of
12 yields background speed 4 and pipe speed 5. -/
theorem dynamic_speeds_spec (s : ℕ) :
    get_dynamic_speeds s = (2 + ((s / 5 : ℕ) : ℤ), 3 + ((s / 5 : ℕ) : ℤ)) ∧
    (∀ t : ℕ, s ≤ t →
      (get_dynamic_speeds s).1 ≤ (get_dynamic_speeds t).1 ∧
      (get_dynamic_speeds s).2 ≤ (get_dynamic_speeds t).2) ∧
    get_dynamic_speeds 12 = (4, 5) := by
  refine ⟨rfl, ?_, by decide⟩
  intro t ht
  have hd : s / 5 ≤ t / 5 := Nat.div_le_div_right ht
  have hc : ((s / 5 : ℕ) : ℤ) ≤ ((t / 5 : ℕ) : ℤ) := Int.ofNat_le.mpr hd
  constructor <;> simp [get_dynamic_speeds, BG_SCROLL_SPEED_BASE, PIPE_SPEED_BASE] <;> omega

/-- Witness for C9 at a concrete pair of scores. -/
theorem dynamic_speeds_spec_witness :
    (get_dynamic_speeds 3).1 ≤ (get_dynamic_speeds 12).1 ∧
    (get_dynamic_speeds 3).2 ≤ (get_dynamic_speeds 12).2 :=
  (dynamic_speeds_spec 3).2.1 12 (by decide)

/-! ## Gap randomisation -/

theorem randomize_position_range (r : ℕ) :
    MIN_PIPE_HEIGHT ≤ randomize_position r ∧
    randomize_position r ≤ WINDOW_HEIGHT - PIPE_GAP - MIN_PIPE_HEIGHT := by
  unfold randomize_position
  exact randintZ_mem _ _ r (by decide)

/-! ## C4 — recycling relative to the rightmost other pipe -/

/-- C4: a pipe is recycled exactly when, after moving left by the current
speed, its trailing edge satisfies `x + PIPE_WIDTH < 0`; the recycled
pipe's new x is the maximum x over the other pipes (at their positions at
the moment of recycling) plus a spacing drawn from the inclusive range
`[MIN_PIPE_SPACING, MAX_PIPE_SPACING]` (all of whose values the draw
model attains), its scored flag is reset to false, and its gap-top is
redrawn from the valid range. -/
theorem recycle_rightmost_spec (x : ℤ) (xs : List ℤ) (rd rg : ℕ) (speed : ℤ)
    (g : ℕ → ℕ) (done rest : List Pipe) (p : Pipe) (rix : ℕ) :
    (∃ m q, listMax (x :: xs) = some m ∧ m ∈ x :: xs ∧ (∀ y ∈ x :: xs, y ≤ m) ∧
      reset_position (x :: xs) rd rg = some q ∧
      q.x = m + randintZ MIN_PIPE_SPACING MAX_PIPE_SPACING rd ∧
      MIN_PIPE_SPACING ≤ randintZ MIN_PIPE_SPACING MAX_PIPE_SPACING rd ∧
      randintZ MIN_PIPE_SPACING MAX_PIPE_SPACING rd ≤ MAX_PIPE_SPACING ∧
      q.scored = false ∧
      MIN_PIPE_HEIGHT ≤ q.gap_top ∧
      q.gap_top ≤ WINDOW_HEIGHT - PIPE_GAP - MIN_PIPE_HEIGHT) ∧
    (∀ v : ℤ, MIN_PIPE_SPACING ≤ v → v ≤ MAX_PIPE_SPACING →
      ∃ r : ℕ, randintZ MIN_PIPE_SPACING MAX_PIPE_SPACING r = v) ∧
    (p.x - speed + PIPE_WIDTH < 0 →
      updatePipesGo speed g done (p :: rest) rix =
        match reset_position ((done ++ rest).map Pipe.x) (g rix) (g (rix + 1)) with
        | none => none
        | some q => updatePipesGo speed g (done ++ [q]) rest (rix + 2)) := by
  refine ⟨?_, ?_, ?_⟩
  · obtain ⟨m, hm⟩ := listMax_cons_isSome x xs
    refine ⟨m,
      { x := m + randintZ MIN_PIPE_SPACING MAX_PIPE_SPACING rd
        gap_top := randomize_position rg, scored := false },
      hm, listMax_mem _ m hm, listMax_le _ m hm, by simp [reset_position, hm], rfl,
      (randintZ_mem _ _ rd (by decide)).1, (randintZ_mem _ _ rd (by decide)).2, rfl,
      (randomize_position_range rg).1, (randomize_position_range rg).2⟩
  · intro v h1 h2
    exact randintZ_surj _ _ v h1 h2
  · intro hc
    simp only [updatePipesGo]
    rw [if_pos (by omega)]

/-- Witness for C4: the spacing draw attains 300, and a pipe whose moved
trailing edge is at −23 takes the recycle branch. -/
theorem recycle_rightmost_spec_witness :
    (∃ r : ℕ, randintZ MIN_PIPE_SPACING MAX_PIPE_SPACING r = 300) ∧
    updatePipesGo 3 (fun _ => 0) [Pipe.mk 500 50 false] [Pipe.mk (-200) 50 false] 0 =
      match reset_position (([Pipe.mk 500 50 false] ++ []).map Pipe.x)
          ((fun _ => (0 : ℕ)) 0) ((fun _ => (0 : ℕ)) 1) with
      | none => none
      | some q => updatePipesGo 3 (fun _ => 0) ([Pipe.mk 500 50 false] ++ [q]) [] 2 :=
  ⟨(recycle_rightmost_spec 0 [] 0 0 3 (fun _ => 0) [Pipe.mk 500 50 false] []
      (Pipe.mk (-200) 50 false) 0).2.1 300 (by decide) (by decide),
   (recycle_rightmost_spec 0 [] 0 0 3 (fun _ => 0) [Pipe.mk 500 50 false] []
      (Pipe.mk (-200) 50 false) 0).2.2 (by decide)⟩

/-! ## Totality and invariants of the pipe-pool update -/

theorem updatePipesGo_total (speed : ℤ) (g : ℕ → ℕ) :
    ∀ (rest done : List Pipe) (rix : ℕ), 2 ≤ done.length + rest.length →
      ∃ out rix', updatePipesGo speed g done rest rix = some (out, rix') ∧
        out.length = done.length + rest.length := by
  intro rest
  induction rest with
  | nil =>
    intro done rix _
    exact ⟨done, rix, rfl, by simp⟩
  | cons p rest' ih =>
    intro done rix hlen
    by_cases hc : p.x - speed + PIPE_WIDTH < 0
    · have hne : (done ++ rest').map Pipe.x ≠ [] := by
        intro hnil
        have hlen2 : ((done ++ rest').map Pipe.x).length = 0 := by rw [hnil]; rfl
        rw [List.length_map, List.length_append] at hlen2
        rw [List.length_cons] at hlen
        omega
      obtain ⟨y, ys, hys⟩ := List.exists_cons_of_ne_nil hne
      obtain ⟨m, hm⟩ := listMax_cons_isSome y ys
      have hreset : reset_position ((done ++ rest').map Pipe.x) (g rix) (g (rix + 1)) =
          some { x := m + randintZ MIN_PIPE_SPACING MAX_PIPE_SPACING (g rix)
                 gap_top := randomize_position (g (rix + 1)), scored := false } := by
        rw [hys]
        simp [reset_position, hm]
      obtain ⟨out, rix', hrun, hlen'⟩ := ih
        (done ++ [{ x := m + randintZ MIN_PIPE_SPACING MAX_PIPE_SPACING (g rix)
                    gap_top := randomize_position (g (rix + 1)), scored := false }])
        (rix + 2) (by simp at hlen ⊢; omega)
      refine ⟨out, rix', ?_, ?_⟩
      · simp only [updatePipesGo]
        rw [if_pos (by omega), hreset]
        exact hrun
      · simp at hlen'
        simp
        omega
    · obtain ⟨out, rix', hrun, hlen'⟩ := ih (done ++ [{ p with x := p.x - speed }]) rix
        (by simp at hlen ⊢; omega)
      refine ⟨out, rix', ?_, ?_⟩
      · simp only [updatePipesGo]
        rw [if_neg (by omega)]
        exact hrun
      · simp at hlen'
        simp
        omega

theorem updatePipesGo_gap (speed : ℤ) (g : ℕ → ℕ) :
    ∀ (rest done : List Pipe) (rix : ℕ) (out : List Pipe) (rix' : ℕ),
      (∀ p ∈ done ++ rest, gapInRange p) →
      updatePipesGo speed g done rest rix = some (out, rix') →
      ∀ p ∈ out, gapInRange p := by
  intro rest
  induction rest with
  | nil =>
    intro done rix out rix' hinv heq
    simp only [updatePipesGo] at heq
    cases heq
    simpa using hinv
  | cons p rest' ih =>
    intro done rix out rix' hinv heq
    by_cases hc : p.x - speed + PIPE_WIDTH < 0
    · simp only [updatePipesGo] at heq
      rw [if_pos (by omega)] at heq
      cases hr : reset_position ((done ++ rest').map Pipe.x) (g rix) (g (rix + 1)) with
      | none => rw [hr] at heq; cases heq
      | some q =>
        rw [hr] at heq
        refine ih (done ++ [q]) (rix + 2) out rix' ?_ heq
        intro p' hp'
        rcases List.mem_append.mp hp' with h1 | h1
        · rcases List.mem_append.mp h1 with h2 | h2
          · exact hinv p' (List.mem_append.mpr (Or.inl h2))
          · have hq : p' = q := by simpa using h2
            subst hq
            unfold reset_position at hr
            cases hl : listMax ((done ++ rest').map Pipe.x) with
            | none => rw [hl] at hr; cases hr
            | some m =>
              rw [hl] at hr
              cases hr
              exact ⟨(randomize_position_range _).1, (randomize_position_range _).2⟩
        · exact hinv p' (List.mem_append.mpr (Or.inr (List.mem_cons_of_mem p h1)))
    · simp only [updatePipesGo] at heq
      rw [if_neg (by omega)] at heq
      refine ih (done ++ [{ p with x := p.x - speed }]) rix out rix' ?_ heq
      intro p' hp'
      rcases List.mem_append.mp hp' with h1 | h1
      · rcases List.mem_append.mp h1 with h2 | h2
        · exact hinv p' (List.mem_append.mpr (Or.inl h2))
        · have hq : p' = { p with x := p.x - speed } := by simpa using h2
          subst hq
          exact hinv p (by simp)
      · exact hinv p' (List.mem_append.mpr (Or.inr (List.mem_cons_of_mem p h1)))

theorem runPipes_total (g : ℕ → ℕ) (sp : ℕ → ℤ) :
    ∀ (n : ℕ) (ps : List Pipe) (rix : ℕ), 2 ≤ ps.length →
      ∃ ps' rix', runPipes g sp n ps rix = some (ps', rix') ∧ ps'.length = ps.length := by
  intro n
  induction n with
  | zero => intro ps rix _; exact ⟨ps, rix, rfl, rfl⟩
  | succ n ih =>
    intro ps rix hlen
    obtain ⟨out, rix', hrun, hlen'⟩ :=
      updatePipesGo_total (sp n) g ps [] rix (by simpa using hlen)
    simp at hlen'
    obtain ⟨ps', rix'', hrun', hlen''⟩ := ih out rix' (by omega)
    refine ⟨ps', rix'', ?_, by omega⟩
    simp only [runPipes]
    rw [hrun]
    exact hrun'

theorem runPipes_gap (g : ℕ → ℕ) (sp : ℕ → ℤ) :
    ∀ (n : ℕ) (ps : List Pipe) (rix : ℕ) (ps' : List Pipe) (rix' : ℕ),
      (∀ p ∈ ps, gapInRange p) →
      runPipes g sp n ps rix = some (ps', rix') →
      ∀ p ∈ ps', gapInRange p := by
  intro n
  induction n with
  | zero =>
    intro ps rix ps' rix' hinv heq
    simp only [runPipes] at heq
    cases heq
    exact hinv
  | succ n ih =>
    intro ps rix ps' rix' hinv heq
    simp only [runPipes] at heq
    cases hu : updatePipesGo (sp n) g [] ps rix with
    | none => rw [hu] at heq; cases heq
    | some r =>
      rw [hu] at heq
      have hmid := updatePipesGo_gap (sp n) g ps [] rix r.1 r.2 (by simpa using hinv)
        (by rw [hu])
      exact ih r.1 r.2 ps' rix' hmid heq

theorem initPipes_length (g : ℕ → ℕ) : (initPipes g).length = 5 := by
  simp [initPipes, NUM_PIPES]

theorem initPipes_gap (g : ℕ → ℕ) : ∀ p ∈ initPipes g, gapInRange p := by
  intro p hp
  simp only [initPipes, List.mem_map] at hp
  obtain ⟨i, _, hi⟩ := hp
  subst hi
  exact ⟨(randomize_position_range _).1, (randomize_position_range _).2⟩

/-! ## C3 — gap-top invariant -/

/-- C3: every draw of `randomize_position` lies in
`[MIN_PIPE_HEIGHT, WINDOW_HEIGHT - PIPE_GAP - MIN_PIPE_HEIGHT]`, which
with the constants of this program is the inclusive range `[50, 400]`, so
25 is never produced; the gap-top of every pipe of a fresh pool is in
that range, and this is preserved by any number of frames of the pipe
update (including every recycle event). -/
theorem gap_top_always_valid :
    (∀ r : ℕ, MIN_PIPE_HEIGHT ≤ randomize_position r ∧
      randomize_position r ≤ WINDOW_HEIGHT - PIPE_GAP - MIN_PIPE_HEIGHT) ∧
    (MIN_PIPE_HEIGHT = 50 ∧ WINDOW_HEIGHT - PIPE_GAP - MIN_PIPE_HEIGHT = 400) ∧
    (∀ r : ℕ, randomize_position r ≠ 25) ∧
    (∀ g : ℕ → ℕ, ∀ p ∈ initPipes g, 50 ≤ p.gap_top ∧ p.gap_top ≤ 400) ∧
    (∀ (g g2 : ℕ → ℕ) (sp : ℕ → ℤ) (n rix : ℕ) (ps' : List Pipe) (rix' : ℕ),
      runPipes g2 sp n (initPipes g) rix = some (ps', rix') →
      ∀ p ∈ ps', 50 ≤ p.gap_top ∧ p.gap_top ≤ 400) := by
  have hr : ∀ r : ℕ, MIN_PIPE_HEIGHT ≤ randomize_position r ∧
      randomize_position r ≤ WINDOW_HEIGHT - PIPE_GAP - MIN_PIPE_HEIGHT :=
    fun r => randomize_position_range r
  have hb : MIN_PIPE_HEIGHT = (50 : ℤ) ∧ WINDOW_HEIGHT - PIPE_GAP - MIN_PIPE_HEIGHT = (400 : ℤ) :=
    by decide
  refine ⟨hr, hb, ?_, ?_, ?_⟩
  · intro r
    have := hr r
    omega
  · intro g p hp
    have := initPipes_gap g p hp
    unfold gapInRange at this
    omega
  · intro g g2 sp n rix ps' rix' heq p hp
    have := runPipes_gap g2 sp n (initPipes g) rix ps' rix' (initPipes_gap g) heq p hp
    unfold gapInRange at this
    omega

/-- Witness for C3: one frame of the pool update on a fresh pool, with
the zero draw stream, keeps the first pipe's gap-top inside [50, 400]. -/
theorem gap_top_always_valid_witness :
    50 ≤ (Pipe.mk 797 50 false).gap_top ∧ (Pipe.mk 797 50 false).gap_top ≤ 400 :=
  gap_top_always_valid.2.2.2.2 (fun _ => 0) (fun _ => 0) (fun _ => 3) 1 0
    [Pipe.mk 797 50 false, Pipe.mk 997 50 false, Pipe.mk 1197 50 false,
     Pipe.mk 1397 50 false, Pipe.mk 1597 50 false] 0 (by decide)
    (Pipe.mk 797 50 false) (by decide)

/-! ## C10 — totality of recycling on the fixed pool -/

/-- C10: `reset_position` cannot fail when at least one other pipe
exists; both the manual pool and each generation's pool start with
NUM_PIPES = 5 pipes, and the pool size is preserved by every frame of the
pipe update, so every recycle during any number of frames succeeds and
the empty-maximum failure branch is unreachable. -/
theorem reset_position_total_on_pool :
    (∀ (x : ℤ) (xs : List ℤ) (rd rg : ℕ), (reset_position (x :: xs) rd rg).isSome = true) ∧
    (∀ g : ℕ → ℕ, (initPipes g).length = 5) ∧
    (∀ (g g2 : ℕ → ℕ) (sp : ℕ → ℤ) (rix n : ℕ),
      ∃ ps' rix', runPipes g2 sp n (initPipes g) rix = some (ps', rix') ∧
        ps'.length = 5) := by
  refine ⟨?_, initPipes_length, ?_⟩
  · intro x xs rd rg
    obtain ⟨m, hm⟩ := listMax_cons_isSome x xs
    simp [reset_position, hm]
  · intro g g2 sp rix n
    obtain ⟨ps', rix', hrun, hlen⟩ :=
      runPipes_total g2 sp n (initPipes g) rix (by rw [initPipes_length]; omega)
    exact ⟨ps', rix', hrun, by rw [hlen, initPipes_length]⟩

/-! ## C1 — pass events: exactly-once scoring with broadcast bonus -/

theorem map_add_add (l : List ℚ) (a b : ℚ) :
    (l.map (fun f => f + a)).map (fun f => f + b) = l.map (fun f => f + (a + b)) := by
  induction l with
  | nil => rfl
  | cons x xs ih => simp [ih, add_assoc]

theorem pipe_mark_self (p : Pipe) (h : p.scored = true) : { p with scored := true } = p := by
  cases p
  simp_all

theorem scoreStep_closed : ∀ (ps : List Pipe) (fits : List ℚ) (sc : ℕ),
    scoreStep fits sc ps =
      (fits.map (fun f => f + 5 * (newlyPassed ps : ℚ)), sc + newlyPassed ps, markPassed ps) := by
  intro ps
  induction ps with
  | nil =>
    intro fits sc
    simp [scoreStep, newlyPassed, markPassed]
  | cons p ps ih =>
    intro fits sc
    by_cases h : p.x + PIPE_WIDTH < BIRD_X + BIRD_WIDTH ∧ p.scored = false
    · have hnp : newlyPassed (p :: ps) = newlyPassed ps + 1 := by
        simp [newlyPassed, List.countP_cons, h]
      have hmk : markPassed (p :: ps) = { p with scored := true } :: markPassed ps := by
        simp [markPassed, h.1]
      simp only [scoreStep, if_pos h, ih, hnp, hmk]
      refine Prod.ext ?_ (Prod.ext ?_ ?_) <;> simp
      · intro a _
        ring
      · omega
    · have hnp : newlyPassed (p :: ps) = newlyPassed ps := by
        simp [newlyPassed, List.countP_cons, h]
      have hmk : markPassed (p :: ps) = p :: markPassed ps := by
        by_cases hx : p.x + PIPE_WIDTH < BIRD_X + BIRD_WIDTH
        · have hs : p.scored = true := by
            rcases Bool.eq_false_or_eq_true p.scored with hb | hb
            · exact hb
            · exact absurd ⟨hx, hb⟩ h
          simp [markPassed, hx, pipe_mark_self p hs]
        · simp [markPassed, hx]
      simp only [scoreStep, if_neg h, ih, hnp, hmk]

theorem newlyPassed_markPassed (ps : List Pipe) : newlyPassed (markPassed ps) = 0 := by
  induction ps with
  | nil => rfl
  | cons p ps ih =>
    by_cases hx : p.x + PIPE_WIDTH < BIRD_X + BIRD_WIDTH
    · simp [markPassed, newlyPassed, List.countP_cons, hx] at ih ⊢
      exact ih
    · simp [markPassed, newlyPassed, List.countP_cons, hx] at ih ⊢
      exact ih

theorem markPassed_idem (ps : List Pipe) : markPassed (markPassed ps) = markPassed ps := by
  induction ps with
  | nil => rfl
  | cons p ps ih =>
    by_cases hx : p.x + PIPE_WIDTH < BIRD_X + BIRD_WIDTH
    · simp [markPassed, hx] at ih ⊢
      exact ih
    · simp [markPassed, hx] at ih ⊢
      exact ih

/-- C1: one scoring pass adds exactly 1 to the shared round score for
each obstacle whose trailing edge (x + PIPE_WIDTH) is strictly left of
the reference agent's trailing edge (BIRD_X + BIRD_WIDTH) and whose
scored flag is still false, sets those flags, and adds a +5 fitness
bonus for each such event to every agent currently in the collections;
after the pass no pipe can trigger again, so a second pass changes
nothing (idempotence until a recycle resets the flag).  The last two
conjuncts state the single-obstacle cases explicitly: a passed, unscored
obstacle scores exactly once with the broadcast bonus, and an
already-scored obstacle contributes nothing. -/
theorem pass_event_scoring (fits : List ℚ) (sc : ℕ) (ps : List Pipe) :
    scoreStep fits sc ps =
      (fits.map (fun f => f + 5 * (newlyPassed ps : ℚ)), sc + newlyPassed ps, markPassed ps) ∧
    newlyPassed (markPassed ps) = 0 ∧
    scoreStep (fits.map (fun f => f + 5 * (newlyPassed ps : ℚ))) (sc + newlyPassed ps)
        (markPassed ps) =
      (fits.map (fun f => f + 5 * (newlyPassed ps : ℚ)), sc + newlyPassed ps, markPassed ps) ∧
    (∀ p : Pipe, p.x + PIPE_WIDTH < BIRD_X + BIRD_WIDTH → p.scored = false →
      scoreStep fits sc [p] = (fits.map (fun f => f + 5), sc + 1, [{ p with scored := true }])) ∧
    (∀ p : Pipe, p.scored = true → scoreStep fits sc [p] = (fits, sc, [p])) := by
  refine ⟨scoreStep_closed ps fits sc, newlyPassed_markPassed ps, ?_, ?_, ?_⟩
  · rw [scoreStep_closed, newlyPassed_markPassed, markPassed_idem]
    simp
  · intro p h1 h2
    simp [scoreStep, h1, h2]
  · intro p h1
    simp [scoreStep, h1]

/-- Witness for C1 on a concrete pipe: at x = −50 the trailing edge is at
130 < 140, the pipe scores once, and once scored it contributes nothing. -/
theorem pass_event_scoring_witness :
    scoreStep [0, 1] 3 [Pipe.mk (-50) 60 false] =
      ([0, 1].map (fun f => f + 5), 3 + 1, [{ Pipe.mk (-50) 60 false with scored := true }]) ∧
    scoreStep [0, 1] 3 [Pipe.mk (-50) 60 true] = ([0, 1], 3, [Pipe.mk (-50) 60 true]) :=
  ⟨(pass_event_scoring [0, 1] 3 [Pipe.mk (-50) 60 false]).2.2.2.1
      (Pipe.mk (-50) 60 false) (by decide) (by decide),
   (pass_event_scoring [0, 1] 3 [Pipe.mk (-50) 60 true]).2.2.2.2
      (Pipe.mk (-50) 60 true) (by decide)⟩

/-! ## C2 — wall violation: boundary and check order -/

/-- Counterexample to C2 as stated: at y = 570 the claimed wall condition
(y + BIRD_HEIGHT ≥ screen height, here 600 ≥ 600) holds and the AI loop's
check does fire, but the human-mode agent of the cited code has no wall
violation because main_human_mode compares with strict `>`.  So "for
every live agent" the wall condition is not y + BIRD_HEIGHT ≥ height. -/
theorem wall_check_boundary_cex :
    humanWallCheck (Bird.mk 100 570 0) = false ∧
    ((570 : ℚ) + (BIRD_HEIGHT : ℚ) ≥ (WINDOW_HEIGHT : ℚ)) ∧
    wallViolation (Bird.mk 100 570 0) = true ∧
    checkBird (Bird.mk 100 570 0) [] = some Death.wall := by
  refine ⟨by norm_num [humanWallCheck, BIRD_HEIGHT, WINDOW_HEIGHT],
    by norm_num [BIRD_HEIGHT, WINDOW_HEIGHT],
    by norm_num [wallViolation, BIRD_HEIGHT, WINDOW_HEIGHT],
    by norm_num [checkBird, wallViolation, BIRD_HEIGHT, WINDOW_HEIGHT]⟩

/-- C2 (amended): in the AI evaluation loop a wall violation occurs
exactly when y < 0 or y + BIRD_HEIGHT ≥ WINDOW_HEIGHT; it is checked
before the obstacle check and, when it fires, the obstacle check for that
agent is skipped that frame, so the two terminations are mutually
exclusive there and the marked agent receives a single −1 penalty while
being marked for removal.  In the human-mode loop the bottom-edge
comparison is strict (y + BIRD_HEIGHT > WINDOW_HEIGHT) and the obstacle
check runs regardless of the wall check's outcome. -/
theorem wall_check_priority (b : Bird) (ps : List Pipe) :
    (wallViolation b = true ↔ (b.y < 0 ∨ b.y + (BIRD_HEIGHT : ℚ) ≥ (WINDOW_HEIGHT : ℚ))) ∧
    (wallViolation b = true → checkBird b ps = some Death.wall) ∧
    (checkBird b ps = some Death.pipeHit →
      wallViolation b = false ∧ (ps.any fun p => pipeCollide b p) = true) ∧
    (¬ (checkBird b ps = some Death.wall ∧ checkBird b ps = some Death.pipeHit)) ∧
    (∀ (bs : List Bird) (f : ℚ) (fs : List ℚ), (checkBird b ps).isSome = true →
      (checkBirds ps (b :: bs) (f :: fs) 0).1 = 0 :: (checkBirds ps bs fs 1).1 ∧
      (checkBirds ps (b :: bs) (f :: fs) 0).2 = (f - 1) :: (checkBirds ps bs fs 1).2) ∧
    (humanWallCheck b = true ↔ (b.y < 0 ∨ b.y + (BIRD_HEIGHT : ℚ) > (WINDOW_HEIGHT : ℚ))) ∧
    ((humanStepEvents b ps).2 = (ps.any fun p => pipeCollide b p)) := by
  refine ⟨?_, ?_, ?_, ?_, ?_, ?_, rfl⟩
  · simp [wallViolation]
  · intro h
    simp [checkBird, h]
  · intro h
    by_cases hw : wallViolation b
    · simp [checkBird, hw] at h
    · refine ⟨by simpa using hw, ?_⟩
      by_cases hp : (ps.any fun p => pipeCollide b p)
      · exact hp
      · simp [checkBird, hw, hp] at h
  · intro ⟨h1, h2⟩
    rw [h1] at h2
    cases h2
  · intro bs f fs hd
    constructor <;> simp [checkBirds, hd]
  · simp [humanWallCheck]

/-- Witness for C2 (amended) at a concrete agent above the ceiling. -/
theorem wall_check_priority_witness :
    checkBird (Bird.mk 100 (-1) 0) [] = some Death.wall ∧
    (checkBirds [] [Bird.mk 100 (-1) 0] [(0 : ℚ)] 0).1 = 0 :: (checkBirds [] [] [] 1).1 :=
  ⟨(wall_check_priority (Bird.mk 100 (-1) 0) []).2.1 (by decide),
   ((wall_check_priority (Bird.mk 100 (-1) 0) []).2.2.2.2.1 [] 0 [] (by decide)).1⟩

/-! ## C8 — sensory vector fed to the controller -/

theorem nearestStep_eq_none (b : Bird) (p : Pipe) (acc : Option (ℚ × Pipe)) :
    nearestStep b acc p = none ↔
      (acc = none ∧ ¬((p.x : ℚ) - b.x + (PIPE_WIDTH : ℚ) > -50)) := by
  by_cases hq : (p.x : ℚ) - b.x + (PIPE_WIDTH : ℚ) > -50
  · cases acc with
    | none => simp [nearestStep, hq]
    | some v =>
      rcases v with ⟨bd, bp⟩
      by_cases hlt : (p.x : ℚ) - b.x < bd <;> simp [nearestStep, hq, hlt]
  · cases acc with
    | none => simp [nearestStep, hq]
    | some v => simp [nearestStep, hq]

theorem nearest_fold_none (b : Bird) :
    ∀ (ps : List Pipe) (acc : Option (ℚ × Pipe)),
      ps.foldl (nearestStep b) acc = none ↔
        (acc = none ∧ ∀ q ∈ ps, ¬((q.x : ℚ) - b.x + (PIPE_WIDTH : ℚ) > -50)) := by
  intro ps
  induction ps with
  | nil => intro acc; simp
  | cons p ps ih =>
    intro acc
    rw [List.foldl_cons, ih]
    rw [nearestStep_eq_none]
    constructor
    · intro ⟨⟨h1, h2⟩, h3⟩
      refine ⟨h1, ?_⟩
      intro q hqm
      rcases List.mem_cons.mp hqm with hh | hh
      · subst hh; exact h2
      · exact h3 q hh
    · intro ⟨h1, h2⟩
      exact ⟨⟨h1, h2 p (by simp)⟩, fun q hqm => h2 q (List.mem_cons_of_mem p hqm)⟩

theorem nearest_fold_mono (b : Bird) :
    ∀ (ps : List Pipe) (d0 : ℚ) (p0 : Pipe) (d : ℚ) (p : Pipe),
      ps.foldl (nearestStep b) (some (d0, p0)) = some (d, p) → d ≤ d0 := by
  intro ps
  induction ps with
  | nil =>
    intro d0 p0 d p h
    simp at h
    rw [h.1]
  | cons q ps ih =>
    intro d0 p0 d p h
    rw [List.foldl_cons] at h
    by_cases hq : (q.x : ℚ) - b.x + (PIPE_WIDTH : ℚ) > -50
    · by_cases hlt : (q.x : ℚ) - b.x < d0
      · have hstep : nearestStep b (some (d0, p0)) q = some ((q.x : ℚ) - b.x, q) := by
          simp [nearestStep, hq, hlt]
        rw [hstep] at h
        have := ih _ _ _ _ h
        linarith
      · have hstep : nearestStep b (some (d0, p0)) q = some (d0, p0) := by
          simp [nearestStep, hq, hlt]
        rw [hstep] at h
        exact ih _ _ _ _ h
    · have hstep : nearestStep b (some (d0, p0)) q = some (d0, p0) := by
        simp [nearestStep, hq]
      rw [hstep] at h
      exact ih _ _ _ _ h

theorem nearest_fold_some (b : Bird) :
    ∀ (ps : List Pipe) (acc : Option (ℚ × Pipe)) (d : ℚ) (p : Pipe),
      ps.foldl (nearestStep b) acc = some (d, p) →
        acc = some (d, p) ∨ (p ∈ ps ∧ d = (p.x : ℚ) - b.x ∧
          (p.x : ℚ) - b.x + (PIPE_WIDTH : ℚ) > -50) := by
  intro ps
  induction ps with
  | nil =>
    intro acc d p h
    simp at h
    simp [h]
  | cons q ps ih =>
    intro acc d p h
    rw [List.foldl_cons] at h
    rcases ih _ _ _ h with hacc | hmem
    · by_cases hq : (q.x : ℚ) - b.x + (PIPE_WIDTH : ℚ) > -50
      · cases acc with
        | none =>
          have hstep : nearestStep b none q = some ((q.x : ℚ) - b.x, q) := by
            simp [nearestStep, hq]
          rw [hstep] at hacc
          right
          injection hacc with h1
          injection h1 with h1 h2
          exact ⟨by simp [h2], by rw [← h1, ← h2], by rw [← h2]; exact hq⟩
        | some v =>
          rcases v with ⟨bd, bp⟩
          by_cases hlt : (q.x : ℚ) - b.x < bd
          · have hstep : nearestStep b (some (bd, bp)) q = some ((q.x : ℚ) - b.x, q) := by
              simp [nearestStep, hq, hlt]
            rw [hstep] at hacc
            right
            injection hacc with h1
            injection h1 with h1 h2
            exact ⟨by simp [h2], by rw [← h1, ← h2], by rw [← h2]; exact hq⟩
          · have hstep : nearestStep b (some (bd, bp)) q = some (bd, bp) := by
              simp [nearestStep, hq, hlt]
            rw [hstep] at hacc
            left
            exact hacc
      · have hstep : nearestStep b acc q = acc := by
          cases acc with
          | none => simp [nearestStep, hq]
          | some v => simp [nearestStep, hq]
        rw [hstep] at hacc
        left
        exact hacc
    · right
      exact ⟨List.mem_cons_of_mem q hmem.1, hmem.2.1, hmem.2.2⟩

theorem nearest_fold_min (b : Bird) :
    ∀ (ps : List Pipe) (acc : Option (ℚ × Pipe)) (d : ℚ) (p : Pipe),
      ps.foldl (nearestStep b) acc = some (d, p) →
      ∀ q ∈ ps, (q.x : ℚ) - b.x + (PIPE_WIDTH : ℚ) > -50 → d ≤ (q.x : ℚ) - b.x := by
  intro ps
  induction ps with
  | nil =>
    intro acc d p _ q hq
    simp at hq
  | cons q0 ps ih =>
    intro acc d p h q hqm hq
    rw [List.foldl_cons] at h
    rcases List.mem_cons.mp hqm with hh | hh
    · subst hh
      have hval : ∃ d1 p1, nearestStep b acc q = some (d1, p1) ∧ d1 ≤ (q.x : ℚ) - b.x := by
        cases acc with
        | none =>
          exact ⟨(q.x : ℚ) - b.x, q, by simp [nearestStep, hq], le_refl _⟩
        | some v =>
          rcases v with ⟨bd, bp⟩
          by_cases hlt : (q.x : ℚ) - b.x < bd
          · exact ⟨(q.x : ℚ) - b.x, q, by simp [nearestStep, hq, hlt], le_refl _⟩
          · exact ⟨bd, bp, by simp [nearestStep, hq, hlt], by linarith⟩
      obtain ⟨d1, p1, hstep, hle⟩ := hval
      rw [hstep] at h
      have := nearest_fold_mono b ps d1 p1 d p h
      linarith
    · exact ih _ _ _ h q hh hq

/-- Counterexample to C8 as stated: the tuple handed to the controller at
a concrete state has exactly 5 entries (y, vertical velocity, distance to
the nearest qualifying pipe, gap-top, gap-bottom), not 8; moreover a pipe
at signed offset −200, which the claim's qualification rule (offset
exceeding −obstacleWidth = −180) excludes, is still selected by the
code's scan, whose threshold is offset + PIPE_WIDTH > −50. -/
theorem sensory_vector_cex :
    sensoryInputs (Bird.mk 100 300 0) [Pipe.mk 800 50 false] =
      some [300, 0, 700, 50, 200] ∧
    ([(300 : ℚ), 0, 700, 50, 200].length = 8 → False) ∧
    nearestPipe (Bird.mk 100 300 0) [Pipe.mk (-100) 50 false] =
      some (-200, Pipe.mk (-100) 50 false) ∧
    (-200 : ℚ) ≤ -(PIPE_WIDTH : ℚ) := by
  refine ⟨?_, by simp, ?_, by norm_num [PIPE_WIDTH]⟩
  · norm_num [sensoryInputs, nearestPipe, nearestStep, PIPE_WIDTH, PIPE_GAP]
  · norm_num [nearestPipe, nearestStep, PIPE_WIDTH]

/-- C8 (amended): the sensory vector has exactly 5 values — the agent's
y, its vertical velocity, the signed horizontal distance to the nearest
qualifying pipe, that pipe's gap-top, and its gap-bottom (gap-top +
PIPE_GAP) — where a pipe qualifies exactly when its signed offset d from
the agent satisfies d + PIPE_WIDTH > −50, the nearest is a qualifying
pipe of minimal signed offset, and when no pipe qualifies the controller
is not invoked at all (so the agent does not flap that frame). -/
theorem sensory_vector_5 (b : Bird) (ps : List Pipe) :
    (∀ v : List ℚ, sensoryInputs b ps = some v →
      v.length = 5 ∧
      ∃ d p, nearestPipe b ps = some (d, p) ∧ p ∈ ps ∧ d = (p.x : ℚ) - b.x ∧
        d + (PIPE_WIDTH : ℚ) > -50 ∧
        (∀ q ∈ ps, (q.x : ℚ) - b.x + (PIPE_WIDTH : ℚ) > -50 → d ≤ (q.x : ℚ) - b.x) ∧
        v = [b.y, b.vel_y, d, (p.gap_top : ℚ), ((p.gap_top + PIPE_GAP : ℤ) : ℚ)]) ∧
    (sensoryInputs b ps = none →
      (∀ q ∈ ps, ¬((q.x : ℚ) - b.x + (PIPE_WIDTH : ℚ) > -50)) ∧
      ∀ net : Net, decideBird net ps b = b) := by
  constructor
  · intro v hv
    cases hnp : nearestPipe b ps with
    | none => simp [sensoryInputs, hnp] at hv
    | some r =>
      rcases r with ⟨d, p⟩
      have hv' : v = [b.y, b.vel_y, d, (p.gap_top : ℚ), ((p.gap_top + PIPE_GAP : ℤ) : ℚ)] := by
        simp only [sensoryInputs, hnp, Option.some.injEq] at hv
        rw [← hv]
      have hsome := nearest_fold_some b ps none d p hnp
      rcases hsome with hbad | ⟨hmem, hd, hqual⟩
      · cases hbad
      · refine ⟨by simp [hv'], d, p, rfl, hmem, hd, by rw [hd]; exact hqual, ?_, hv'⟩
        exact nearest_fold_min b ps none d p hnp
  · intro hv
    have hnp : nearestPipe b ps = none := by
      cases hnp : nearestPipe b ps with
      | none => rfl
      | some r =>
        rcases r with ⟨d, p⟩
        simp [sensoryInputs, hnp] at hv
    refine ⟨((nearest_fold_none b ps none).mp hnp).2, ?_⟩
    intro net
    simp [decideBird, hnp]

/-- Witness for C8 (amended): the concrete 5-entry vector of the
counterexample state, and the empty pool, where the controller is not
invoked. -/
theorem sensory_vector_5_witness :
    ([(300 : ℚ), 0, 700, 50, 200].length = 5 ∧
      ∃ d p, nearestPipe (Bird.mk 100 300 0) [Pipe.mk 800 50 false] = some (d, p) ∧
        p ∈ [Pipe.mk 800 50 false] ∧ d = (p.x : ℚ) - (100 : ℚ) ∧
        d + (PIPE_WIDTH : ℚ) > -50 ∧
        (∀ q ∈ [Pipe.mk 800 50 false],
          (q.x : ℚ) - (100 : ℚ) + (PIPE_WIDTH : ℚ) > -50 → d ≤ (q.x : ℚ) - (100 : ℚ)) ∧
        ([(300 : ℚ), 0, 700, 50, 200] =
          [(300 : ℚ), 0, d, (p.gap_top : ℚ), ((p.gap_top + PIPE_GAP : ℤ) : ℚ)])) ∧
    ((∀ q ∈ ([] : List Pipe), ¬((q.x : ℚ) - (100 : ℚ) + (PIPE_WIDTH : ℚ) > -50)) ∧
      ∀ net : Net, decideBird net [] (Bird.mk 100 300 0) = Bird.mk 100 300 0) :=
  ⟨(sensory_vector_5 (Bird.mk 100 300 0) [Pipe.mk 800 50 false]).1
      [(300 : ℚ), 0, 700, 50, 200]
      (by norm_num [sensoryInputs, nearestPipe, nearestStep, PIPE_WIDTH, PIPE_GAP]),
   (sensory_vector_5 (Bird.mk 100 300 0) []).2 rfl⟩

/-! ## C7 — lock-step collections and batch removal -/

theorem foldl_eraseIdx_cons (r : List ℕ) :
    ∀ (x : α) (xs : List α), (∀ i ∈ r, 0 < i) →
      r.foldl (fun acc i => acc.eraseIdx i) (x :: xs) =
        x :: r.foldl (fun acc i => acc.eraseIdx (i - 1)) xs := by
  induction r with
  | nil => intro x xs _; rfl
  | cons j r ih =>
    intro x xs hp
    have hj : 0 < j := hp j (by simp)
    obtain ⟨k, hk⟩ : ∃ k, j = k + 1 := ⟨j - 1, by omega⟩
    subst hk
    rw [List.foldl_cons, List.foldl_cons, List.eraseIdx_cons_succ]
    have := ih x (xs.eraseIdx k) (fun i hi => hp i (by simp [hi]))
    rw [this]
    congr 1

theorem removeAll_cons_pos (l : List ℕ) (x : α) (xs : List α) (hp : ∀ i ∈ l, 0 < i) :
    removeAll (x :: xs) l = x :: removeAll xs (l.map (fun i => i - 1)) := by
  unfold removeAll
  rw [foldl_eraseIdx_cons l.reverse x xs (fun i hi => hp i (List.mem_reverse.mp hi))]
  congr 1
  rw [← List.map_reverse, List.foldl_map]

theorem removeAll_cons_zero (rest : List ℕ) (x : α) (xs : List α)
    (hp : ∀ i ∈ rest, 0 < i) :
    removeAll (x :: xs) (0 :: rest) = removeAll xs (rest.map (fun i => i - 1)) := by
  unfold removeAll
  rw [List.reverse_cons, List.foldl_append]
  rw [foldl_eraseIdx_cons rest.reverse x xs (fun i hi => hp i (List.mem_reverse.mp hi))]
  rw [List.foldl_cons, List.foldl_nil, List.eraseIdx_cons_zero]
  rw [← List.map_reverse, List.foldl_map]

theorem keepUnmarked_nil_marks : ∀ (xs : List α), keepUnmarked xs [] = xs := by
  intro xs
  induction xs with
  | nil => rfl
  | cons x xs ih => rw [keepUnmarked, ih]

theorem removeAll_eq_keepUnmarked :
    ∀ (xs : List α) (idxs : List ℕ), idxs.Pairwise (· < ·) →
      (∀ i ∈ idxs, i < xs.length) → removeAll xs idxs = keepUnmarked xs idxs := by
  intro xs
  induction xs with
  | nil =>
    intro idxs _ hv
    cases idxs with
    | nil => rfl
    | cons i l =>
      have := hv i (by simp)
      simp at this
  | cons x xs ih =>
    intro idxs hp hv
    cases idxs with
    | nil =>
      rw [keepUnmarked_nil_marks]
      rfl
    | cons i rest =>
      have hrest_gt : ∀ j ∈ rest, i < j := fun j hj => (List.pairwise_cons.mp hp).1 j hj
      have hrest_pw : rest.Pairwise (· < ·) := (List.pairwise_cons.mp hp).2
      have hmap_pw : (rest.map (fun i => i - 1)).Pairwise (· < ·) := by
        rw [List.pairwise_map]
        refine hrest_pw.imp_of_mem ?_
        intro a b ha hb hab
        have := hrest_gt a ha
        show a - 1 < b - 1
        omega
      cases i with
      | zero =>
        have hpos : ∀ j ∈ rest, 0 < j := fun j hj => hrest_gt j hj
        rw [removeAll_cons_zero rest x xs hpos, keepUnmarked]
        refine ih (rest.map (fun i => i - 1)) hmap_pw ?_
        intro j hj
        obtain ⟨j0, hj0m, hj0e⟩ := List.mem_map.mp hj
        have hj0 : j0 - 1 = j := hj0e
        have hp0 := hpos j0 hj0m
        have := hv j0 (by simp [hj0m])
        simp at this
        omega
      | succ n =>
        have hpos : ∀ j ∈ (n + 1) :: rest, 0 < j := by
          intro j hj
          rcases List.mem_cons.mp hj with hh | hh
          · omega
          · have := hrest_gt j hh
            omega
        rw [removeAll_cons_pos ((n + 1) :: rest) x xs hpos, keepUnmarked]
        congr 1
        have hpw : (((n + 1) :: rest).map (fun i => i - 1)).Pairwise (· < ·) := by
          rw [List.pairwise_map]
          refine hp.imp_of_mem ?_
          intro a b ha hb hab
          have := hpos a ha
          show a - 1 < b - 1
          omega
        refine ih (((n + 1) :: rest).map (fun i => i - 1)) hpw ?_
        intro j hj
        obtain ⟨j0, hj0m, hj0e⟩ := List.mem_map.mp hj
        have hj0 : j0 - 1 = j := hj0e
        have h1 := hv j0 hj0m
        have h2 := hpos j0 hj0m
        simp at h1
        omega

theorem keepUnmarked_zip :
    ∀ (as : List α) (bs : List β) (idxs : List ℕ), as.length = bs.length →
      keepUnmarked (as.zip bs) idxs = (keepUnmarked as idxs).zip (keepUnmarked bs idxs) := by
  intro as
  induction as with
  | nil =>
    intro bs idxs hlen
    have hbs : bs = [] := List.length_eq_zero.mp (by simp at hlen; omega)
    subst hbs
    simp [keepUnmarked]
  | cons a as ih =>
    intro bs idxs hlen
    cases bs with
    | nil => simp at hlen
    | cons b bs =>
      have hlen' : as.length = bs.length := by simp at hlen; omega
      cases idxs with
      | nil =>
        rw [keepUnmarked_nil_marks, keepUnmarked_nil_marks, keepUnmarked_nil_marks]
      | cons i rest =>
        cases i with
        | zero =>
          show keepUnmarked ((a, b) :: as.zip bs) (0 :: rest) = _
          rw [keepUnmarked, keepUnmarked, keepUnmarked]
          exact ih bs (rest.map (fun i => i - 1)) hlen'
        | succ n =>
          show keepUnmarked ((a, b) :: as.zip bs) ((n + 1) :: rest) = _
          rw [keepUnmarked, keepUnmarked, keepUnmarked]
          rw [ih bs (((n + 1) :: rest).map (fun i => i - 1)) hlen']
          rfl

theorem keepUnmarked_length_congr :
    ∀ (as : List α) (bs : List β) (idxs : List ℕ), as.length = bs.length →
      (keepUnmarked as idxs).length = (keepUnmarked bs idxs).length := by
  intro as
  induction as with
  | nil =>
    intro bs idxs hlen
    have hbs : bs = [] := List.length_eq_zero.mp (by simp at hlen; omega)
    subst hbs
    rfl
  | cons a as ih =>
    intro bs idxs hlen
    cases bs with
    | nil => simp at hlen
    | cons b bs =>
      have hlen' : as.length = bs.length := by simp at hlen; omega
      cases idxs with
      | nil =>
        rw [keepUnmarked_nil_marks, keepUnmarked_nil_marks]
        simp [hlen']
      | cons i rest =>
        cases i with
        | zero =>
          rw [keepUnmarked, keepUnmarked]
          exact ih bs (rest.map (fun i => i - 1)) hlen'
        | succ n =>
          rw [keepUnmarked, keepUnmarked]
          simp only [List.length_cons]
          rw [ih bs (((n + 1) :: rest).map (fun i => i - 1)) hlen']

theorem checkBirds_fst_spec (ps : List Pipe) :
    ∀ (bs : List Bird) (fs : List ℚ) (i : ℕ), bs.length = fs.length →
      (checkBirds ps bs fs i).1.Pairwise (· < ·) ∧
      (∀ j ∈ (checkBirds ps bs fs i).1, i ≤ j ∧ j < i + bs.length) := by
  intro bs
  induction bs with
  | nil =>
    intro fs i _
    constructor
    · simp [checkBirds]
    · intro j hj
      simp [checkBirds] at hj
  | cons b bs ih =>
    intro fs i hlen
    cases fs with
    | nil => simp at hlen
    | cons f fs =>
      have hlen' : bs.length = fs.length := by simp at hlen; omega
      obtain ⟨ihpw, ihbd⟩ := ih fs (i + 1) hlen'
      by_cases hd : (checkBird b ps).isSome
      · have heq : (checkBirds ps (b :: bs) (f :: fs) i).1 =
            i :: (checkBirds ps bs fs (i + 1)).1 := by
          simp [checkBirds, hd]
        rw [heq]
        constructor
        · rw [List.pairwise_cons]
          exact ⟨fun j hj => by have := ihbd j hj; omega, ihpw⟩
        · intro j hj
          rcases List.mem_cons.mp hj with hh | hh
          · subst hh
            simp only [List.length_cons]
            omega
          · have := ihbd j hh
            simp only [List.length_cons]
            omega
      · have heq : (checkBirds ps (b :: bs) (f :: fs) i).1 =
            (checkBirds ps bs fs (i + 1)).1 := by
          simp [checkBirds, hd]
        rw [heq]
        constructor
        · exact ihpw
        · intro j hj
          have := ihbd j hj
          simp
          omega

theorem checkBirds_snd_spec (ps : List Pipe) :
    ∀ (bs : List Bird) (fs : List ℚ) (i : ℕ), bs.length = fs.length →
      (checkBirds ps bs fs i).2 =
        List.zipWith (fun b f => if (checkBird b ps).isSome then f - 1 else f) bs fs := by
  intro bs
  induction bs with
  | nil =>
    intro fs i hlen
    have hfs : fs = [] := List.length_eq_zero.mp (by simpa using hlen.symm)
    subst hfs
    simp [checkBirds]
  | cons b bs ih =>
    intro fs i hlen
    cases fs with
    | nil => simp at hlen
    | cons f fs =>
      have hlen' : bs.length = fs.length := by simp at hlen; omega
      by_cases hd : (checkBird b ps).isSome
      · simp [checkBirds, hd, ih fs (i + 1) hlen']
      · simp [checkBirds, hd, ih fs (i + 1) hlen']

/-- C7: during a frame, the collision scan of 12.12 marks each agent at
most once (the marked indices are strictly increasing, hence without
duplicates) and only valid indices; the −1 penalty applies exactly once
to exactly the marked agents; and the batch removal of 12.14 — popping
the marked indices in reverse order from each of the three parallel
collections — removes exactly the marked positions, keeps every
surviving entry in order (it equals the one-pass keep-unmarked filter),
preserves the equal lengths of the three collections, and commutes with
pairing, so index i keeps denoting the same logical agent across the
collections. -/
theorem lockstep_removal (ps : List Pipe) (birds : List Bird) (nets : List Net)
    (fits : List ℚ) (idxs : List ℕ) (fits1 : List ℚ)
    (h1 : birds.length = nets.length) (h2 : birds.length = fits.length)
    (hidx : idxs = (checkBirds ps birds fits 0).1)
    (hfit : fits1 = (checkBirds ps birds fits 0).2) :
    idxs.Pairwise (· < ·) ∧ idxs.Nodup ∧ (∀ j ∈ idxs, j < birds.length) ∧
    fits1 = List.zipWith (fun b f => if (checkBird b ps).isSome then f - 1 else f) birds fits ∧
    fits1.length = birds.length ∧
    removeAll birds idxs = keepUnmarked birds idxs ∧
    removeAll nets idxs = keepUnmarked nets idxs ∧
    removeAll fits1 idxs = keepUnmarked fits1 idxs ∧
    (removeAll birds idxs).length = (removeAll nets idxs).length ∧
    (removeAll birds idxs).length = (removeAll fits1 idxs).length ∧
    removeAll (birds.zip nets) idxs = (removeAll birds idxs).zip (removeAll nets idxs) ∧
    removeAll (birds.zip fits1) idxs = (removeAll birds idxs).zip (removeAll fits1 idxs) := by
  subst hidx
  subst hfit
  obtain ⟨hpw, hbd⟩ := checkBirds_fst_spec ps birds fits 0 h2
  have hval : ∀ j ∈ (checkBirds ps birds fits 0).1, j < birds.length := by
    intro j hj
    have := hbd j hj
    omega
  have hsnd := checkBirds_snd_spec ps birds fits 0 h2
  have hflen : (checkBirds ps birds fits 0).2.length = birds.length := by
    rw [hsnd, List.length_zipWith]
    omega
  have hvaln : ∀ j ∈ (checkBirds ps birds fits 0).1, j < nets.length := by
    intro j hj
    have := hval j hj
    omega
  have hvalf : ∀ j ∈ (checkBirds ps birds fits 0).1,
      j < (checkBirds ps birds fits 0).2.length := by
    intro j hj
    have := hval j hj
    omega
  have hrb := removeAll_eq_keepUnmarked birds (checkBirds ps birds fits 0).1 hpw hval
  have hrn := removeAll_eq_keepUnmarked nets (checkBirds ps birds fits 0).1 hpw hvaln
  have hrf := removeAll_eq_keepUnmarked (checkBirds ps birds fits 0).2
    (checkBirds ps birds fits 0).1 hpw hvalf
  have hvalzn : ∀ j ∈ (checkBirds ps birds fits 0).1, j < (birds.zip nets).length := by
    intro j hj
    rw [List.length_zip]
    have := hval j hj
    omega
  have hvalzf : ∀ j ∈ (checkBirds ps birds fits 0).1,
      j < (birds.zip (checkBirds ps birds fits 0).2).length := by
    intro j hj
    rw [List.length_zip]
    have := hval j hj
    omega
  refine ⟨hpw, hpw.imp (fun h => Nat.ne_of_lt h), hval, hsnd, hflen, hrb, hrn, hrf, ?_, ?_, ?_, ?_⟩
  · rw [hrb, hrn]
    exact keepUnmarked_length_congr birds nets _ h1
  · rw [hrb, hrf]
    exact keepUnmarked_length_congr birds _ _ hflen.symm
  · rw [removeAll_eq_keepUnmarked (birds.zip nets) _ hpw hvalzn,
      keepUnmarked_zip birds nets _ h1, hrb, hrn]
  · rw [removeAll_eq_keepUnmarked (birds.zip (checkBirds ps birds fits 0).2) _ hpw hvalzf,
      keepUnmarked_zip birds _ _ hflen.symm, hrb, hrf]

/-- Witness for C7: one agent above the ceiling with one controller and
one fitness cell; index 0 is marked once and all collections stay in
lock-step. -/
theorem lockstep_removal_witness :
    ((checkBirds [] [Bird.mk 100 (-1) 0] [(0 : ℚ)] 0).1.Pairwise (· < ·) ∧
      (checkBirds [] [Bird.mk 100 (-1) 0] [(0 : ℚ)] 0).1.Nodup ∧
      (∀ j ∈ (checkBirds [] [Bird.mk 100 (-1) 0] [(0 : ℚ)] 0).1,
        j < [Bird.mk 100 (-1) 0].length) ∧
      (checkBirds [] [Bird.mk 100 (-1) 0] [(0 : ℚ)] 0).2 =
        List.zipWith (fun b f => if (checkBird b []).isSome then f - 1 else f)
          [Bird.mk 100 (-1) 0] [(0 : ℚ)] ∧
      (checkBirds [] [Bird.mk 100 (-1) 0] [(0 : ℚ)] 0).2.length =
        [Bird.mk 100 (-1) 0].length ∧
      removeAll [Bird.mk 100 (-1) 0] (checkBirds [] [Bird.mk 100 (-1) 0] [(0 : ℚ)] 0).1 =
        keepUnmarked [Bird.mk 100 (-1) 0] (checkBirds [] [Bird.mk 100 (-1) 0] [(0 : ℚ)] 0).1 ∧
      removeAll [(fun _ _ _ _ _ => 0 : Net)] (checkBirds [] [Bird.mk 100 (-1) 0] [(0 : ℚ)] 0).1 =
        keepUnmarked [(fun _ _ _ _ _ => 0 : Net)]
          (checkBirds [] [Bird.mk 100 (-1) 0] [(0 : ℚ)] 0).1 ∧
      removeAll (checkBirds [] [Bird.mk 100 (-1) 0] [(0 : ℚ)] 0).2
          (checkBirds [] [Bird.mk 100 (-1) 0] [(0 : ℚ)] 0).1 =
        keepUnmarked (checkBirds [] [Bird.mk 100 (-1) 0] [(0 : ℚ)] 0).2
          (checkBirds [] [Bird.mk 100 (-1) 0] [(0 : ℚ)] 0).1 ∧
      (removeAll [Bird.mk 100 (-1) 0]
          (checkBirds [] [Bird.mk 100 (-1) 0] [(0 : ℚ)] 0).1).length =
        (removeAll [(fun _ _ _ _ _ => 0 : Net)]
          (checkBirds [] [Bird.mk 100 (-1) 0] [(0 : ℚ)] 0).1).length ∧
      (removeAll [Bird.mk 100 (-1) 0]
          (checkBirds [] [Bird.mk 100 (-1) 0] [(0 : ℚ)] 0).1).length =
        (removeAll (checkBirds [] [Bird.mk 100 (-1) 0] [(0 : ℚ)] 0).2
          (checkBirds [] [Bird.mk 100 (-1) 0] [(0 : ℚ)] 0).1).length ∧
      removeAll ([Bird.mk 100 (-1) 0].zip [(fun _ _ _ _ _ => 0 : Net)])
          (checkBirds [] [Bird.mk 100 (-1) 0] [(0 : ℚ)] 0).1 =
        (removeAll [Bird.mk 100 (-1) 0]
            (checkBirds [] [Bird.mk 100 (-1) 0] [(0 : ℚ)] 0).1).zip
          (removeAll [(fun _ _ _ _ _ => 0 : Net)]
            (checkBirds [] [Bird.mk 100 (-1) 0] [(0 : ℚ)] 0).1) ∧
      removeAll ([Bird.mk 100 (-1) 0].zip (checkBirds [] [Bird.mk 100 (-1) 0] [(0 : ℚ)] 0).2)
          (checkBirds [] [Bird.mk 100 (-1) 0] [(0 : ℚ)] 0).1 =
        (removeAll [Bird.mk 100 (-1) 0]
            (checkBirds [] [Bird.mk 100 (-1) 0] [(0 : ℚ)] 0).1).zip
          (removeAll (checkBirds [] [Bird.mk 100 (-1) 0] [(0 : ℚ)] 0).2
            (checkBirds [] [Bird.mk 100 (-1) 0] [(0 : ℚ)] 0).1)) :=
  lockstep_removal [] [Bird.mk 100 (-1) 0] [(fun _ _ _ _ _ => 0 : Net)] [(0 : ℚ)]
    (checkBirds [] [Bird.mk 100 (-1) 0] [(0 : ℚ)] 0).1
    (checkBirds [] [Bird.mk 100 (-1) 0] [(0 : ℚ)] 0).2 rfl rfl rfl rfl

/-! ## C6 — termination of the evaluation loop -/

theorem markPassed_length (ps : List Pipe) : (markPassed ps).length = ps.length := by
  simp [markPassed]

theorem updatePipesGo_length (speed : ℤ) (g : ℕ → ℕ) :
    ∀ (rest done : List Pipe) (rix : ℕ) (out : List Pipe) (rix' : ℕ),
      updatePipesGo speed g done rest rix = some (out, rix') →
      out.length = done.length + rest.length := by
  intro rest
  induction rest with
  | nil =>
    intro done rix out rix' heq
    simp only [updatePipesGo] at heq
    cases heq
    simp
  | cons p rest' ih =>
    intro done rix out rix' heq
    by_cases hc : p.x - speed + PIPE_WIDTH < 0
    · simp only [updatePipesGo] at heq
      rw [if_pos (by omega)] at heq
      cases hr : reset_position ((done ++ rest').map Pipe.x) (g rix) (g (rix + 1)) with
      | none => rw [hr] at heq; cases heq
      | some q =>
        rw [hr] at heq
        have := ih (done ++ [q]) (rix + 2) out rix' heq
        simp at this
        simp
        omega
    · simp only [updatePipesGo] at heq
      rw [if_neg (by omega)] at heq
      have := ih (done ++ [{ p with x := p.x - speed }]) rix out rix' heq
      simp at this
      simp
      omega

theorem stepFrame_some_info (g : ℕ → ℕ) (s s' : EvalState)
    (h : stepFrame g s = some s') :
    s'.frame = s.frame + 1 ∧ s'.pipes.length = s.pipes.length := by
  unfold stepFrame at h
  cases hu : updatePipesGo (get_dynamic_speeds s.score).2 g [] s.pipes s.rix with
  | none => rw [hu] at h; cases h
  | some r =>
    obtain ⟨out, rix'⟩ := r
    rw [hu] at h
    injection h with h
    subst h
    refine ⟨rfl, ?_⟩
    show (scoreStep _ s.score out).2.2.length = s.pipes.length
    rw [scoreStep_closed]
    rw [markPassed_length]
    have := updatePipesGo_length (get_dynamic_speeds s.score).2 g s.pipes [] s.rix out rix' hu
    simpa using this

theorem stepFrame_total (g : ℕ → ℕ) (s : EvalState) (hp : 2 ≤ s.pipes.length) :
    ∃ s', stepFrame g s = some s' := by
  obtain ⟨out, rix', hrun, _⟩ :=
    updatePipesGo_total (get_dynamic_speeds s.score).2 g s.pipes [] s.rix (by simpa using hp)
  exact ⟨stepFrameCore s out rix', by simp [stepFrame, hrun]⟩

/-- C6: the AI evaluation loop always terminates on a well-formed pool
(at least two pipes, as every real pool with NUM_PIPES = 5 has): it
returns immediately when the live-agent set is empty, and in every case
the state it stops in has either no live agents or a frame counter beyond
the hard cap of 10,000 frames — so no round runs forever even if some
policy never dies. -/
theorem eval_round_terminates (g : ℕ → ℕ) (s : EvalState) (hp : 2 ≤ s.pipes.length) :
    (s.birds = [] → evalLoop g s = some s) ∧
    ∃ r, evalLoop g s = some r ∧ (r.birds = [] ∨ 10000 < r.frame) := by
  have main : ∀ t : EvalState, 2 ≤ t.pipes.length →
      ∃ r, evalLoop g t = some r ∧ (r.birds = [] ∨ 10000 < r.frame) := by
    refine evalLoop.induct g
      (fun t => 2 ≤ t.pipes.length →
        ∃ r, evalLoop g t = some r ∧ (r.birds = [] ∨ 10000 < r.frame)) ?_ ?_ ?_ ?_
    · intro x hx _
      refine ⟨x, by rw [evalLoop]; simp [hx], Or.inl ?_⟩
      simpa using hx
    · intro x _ hnone hp2
      obtain ⟨s', hs'⟩ := stepFrame_total g x hp2
      rw [hs'] at hnone
      cases hnone
    · intro x hnx s' hstep hfr _
      refine ⟨s', ?_, Or.inr hfr⟩
      rw [evalLoop, if_neg hnx]
      split
      · next heq => rw [hstep] at heq; cases heq
      · next s'' heq =>
        rw [hstep] at heq
        injection heq with heq
        subst heq
        rw [dif_pos hfr]
    · intro x hnx s' hstep hnf ih hp2
      have hinfo := stepFrame_some_info g x s' hstep
      obtain ⟨r, hr, hcond⟩ := ih (by omega)
      refine ⟨r, ?_, hcond⟩
      rw [evalLoop, if_neg hnx]
      split
      · next heq => rw [hstep] at heq; cases heq
      · next s'' heq =>
        rw [hstep] at heq
        injection heq with heq
        subst heq
        rw [dif_neg hnf]
        exact hr
  refine ⟨?_, main s hp⟩
  intro hb
  rw [evalLoop]
  simp [hb]

/-- Witness for C6 on a concrete two-pipe state with no live agents. -/
theorem eval_round_terminates_witness :
    ((EvalState.mk 0 0 [] [] [] [Pipe.mk 800 50 false, Pipe.mk 1000 60 false] 0).birds = [] →
      evalLoop (fun _ => 0) (EvalState.mk 0 0 [] [] [] [Pipe.mk 800 50 false, Pipe.mk 1000 60 false] 0) =
        some (EvalState.mk 0 0 [] [] [] [Pipe.mk 800 50 false, Pipe.mk 1000 60 false] 0)) ∧
    ∃ r, evalLoop (fun _ => 0) (EvalState.mk 0 0 [] [] [] [Pipe.mk 800 50 false, Pipe.mk 1000 60 false] 0) =
        some r ∧ (r.birds = [] ∨ 10000 < r.frame) :=
  eval_round_terminates (fun _ => 0)
    (EvalState.mk 0 0 [] [] [] [Pipe.mk 800 50 false, Pipe.mk 1000 60 false] 0) (by decide)
